import Mathlib

/-!
Verification of the xivo front-end perception core: feature tracker,
mask helpers and the estimator dispatch loop. Definitions are a shallow
embedding of `src/tracker.h`, `src/estimator_process.cpp` and the spec;
theorems settle the behavioral claims about them.
-/

namespace Xivo

/-! ## Estimator process (`src/estimator_process.cpp`) -/

/-- Message kinds reaching `EstimatorProcess::Handle`: the code distinguishes
`VisualMeas` and `InertialMeas` via `dynamic_cast`; every other
`EstimatorMessage` subtype falls through to the final `return false`.
Each message carries a timestamp `ts()`; measurement messages carry the
visualization flag `viz()`. -/
inductive EstimatorMessage where
  | visualMeas (ts : Nat) (viz : Bool)
  | inertialMeas (ts : Nat) (viz : Bool)
  | other (ts : Nat)
deriving Repr, DecidableEq

/-- Timestamp accessor, embedding `EstimatorMessage::ts()`. -/
def EstimatorMessage.ts : EstimatorMessage → Nat
  | .visualMeas t _ => t
  | .inertialMeas t _ => t
  | .other t => t

/-- The four publisher members of `EstimatorProcess` through which
`Handle` may publish: `publisher_` (used for the canvas in the visual
branch and reused in the inertial branch), `pose_publisher_`,
`map_publisher_` and `full_state_publisher_`. -/
inductive PubMember where
  | vizPublisher
  | posePublisher
  | mapPublisher
  | fullStatePublisher
deriving Repr, DecidableEq

/-- What data a `Publish` call carries: the annotated canvas image
(`Canvas::instance()->display()`), the pose state (`gsb` plus covariance
or `gbc`), the in-state map points, or the full state vector. -/
inductive Payload where
  | canvasImage
  | poseState
  | mapState
  | fullState
deriving Repr, DecidableEq

/-- Observable effects of one `Handle` call, in program order:
`message->Execute(estimator_)` and each `Publish` call, tagged with the
member it goes through and the payload it carries. -/
inductive Action where
  | execute
  | publish (member : PubMember) (payload : Payload)
deriving Repr, DecidableEq

/-- Registration state of the four publisher pointers: `true` means the
corresponding member is non-null. -/
structure Publishers where
  vizReg : Bool
  poseReg : Bool
  mapReg : Bool
  fullStateReg : Bool
deriving Repr, DecidableEq

/-- Shallow embedding of `EstimatorProcess::Handle` (estimator_process.cpp
lines 32-79). Returns the ordered list of observable actions and the
boolean result. `baseHandled` is the result of the `Process::Handle(message)`
call: when it is `true`, `Handle` returns immediately. Otherwise the message
is executed against the estimator, then:
- `VisualMeas`: canvas publish through `publisher_` iff `msg->viz()` and
  `publisher_ != nullptr`; then pose, map, full-state publishes, each gated
  only on its own member being non-null; returns `true`.
- `InertialMeas`: a single publish of pose data through `publisher_` iff
  `msg->viz()` and `publisher_ != nullptr`; returns `true`.
- anything else: no publish, returns `false`. -/
def handle (pubs : Publishers) (baseHandled : Bool) (m : EstimatorMessage) :
    List Action × Bool :=
  if baseHandled then ([], true)
  else
    match m with
    | .visualMeas _ viz =>
        (Action.execute ::
          ((if viz && pubs.vizReg then
              [Action.publish .vizPublisher .canvasImage] else []) ++
           (if pubs.poseReg then
              [Action.publish .posePublisher .poseState] else []) ++
           (if pubs.mapReg then
              [Action.publish .mapPublisher .mapState] else []) ++
           (if pubs.fullStateReg then
              [Action.publish .fullStatePublisher .fullState] else [])),
         true)
    | .inertialMeas _ viz =>
        (Action.execute ::
          (if viz && pubs.vizReg then
            [Action.publish .vizPublisher .poseState] else []),
         true)
    | .other _ => ([Action.execute], false)

/-! ## Dispatch-loop message ordering -/

/-- A queued estimator message for the ordering model: its timestamp and
its arrival index `seq` (position in the enqueue order). -/
structure QMsg where
  ts : Nat
  seq : Nat
deriving Repr, DecidableEq

/-- The comparator from the source (estimator_process.cpp lines 11-14):
`operator<` on queued messages compares timestamps. -/
def msgLt (a b : QMsg) : Prop := a.ts < b.ts

instance : DecidableRel msgLt := fun a b => Nat.decLt a.ts b.ts

/-- Modelled from the spec: the drain loop of the dispatch loop is not in
`src/` (only the comparator is); the spec says messages are drained
strictly by ascending timestamp with a stable, deterministic tie-break.
The tie-break is modelled as arrival order: `a` is drained no later than
`b` iff `a` compares below `b` with the source comparator `msgLt`, or
their timestamps are equal and `a` arrived no later. -/
def msgLe (a b : QMsg) : Prop := msgLt a b ∨ (a.ts = b.ts ∧ a.seq ≤ b.seq)

instance : DecidableRel msgLe := fun a b => by
  unfold msgLe msgLt; infer_instance

instance : IsTotal QMsg msgLe where
  total a b := by
    unfold msgLe msgLt
    rcases Nat.lt_trichotomy a.ts b.ts with h | h | h
    · exact Or.inl (Or.inl h)
    · rcases Nat.le_total a.seq b.seq with hs | hs
      · exact Or.inl (Or.inr ⟨h, hs⟩)
      · exact Or.inr (Or.inr ⟨h.symm, hs⟩)
    · exact Or.inr (Or.inl h)

instance : IsTrans QMsg msgLe where
  trans a b c hab hbc := by
    unfold msgLe msgLt at *
    rcases hab with h1 | ⟨h1, s1⟩ <;> rcases hbc with h2 | ⟨h2, s2⟩
    · exact Or.inl (Nat.lt_trans h1 h2)
    · exact Or.inl (h2 ▸ h1)
    · exact Or.inl (h1 ▸ h2)
    · exact Or.inr ⟨h1.trans h2, Nat.le_trans s1 s2⟩

/-- Modelled from the spec: the order in which the dispatch loop drains a
set of queued messages — ascending by the source comparator `msgLt`,
ties broken stably by arrival index. -/
def drainOrder (q : List QMsg) : List QMsg := List.insertionSort msgLe q

/-! ## Tracker: feature model -/

/-- Modelled from the spec: a tracked Feature — persistent identifier,
current image-plane position (integer pixel model), descriptor vector
(used for dropped-track recovery). The Feature class itself is outside
`src/`; the tracker holds `std::list<FeaturePtr> features_`. -/
structure Feature where
  id : Nat
  pos : Int × Int
  desc : List Int
deriving Repr, DecidableEq

/-- Modelled from the spec: the per-feature outcome reported by the
pyramidal Lucas-Kanade backend — the status flag and the predicted new
position. -/
structure TrackResult where
  success : Bool
  newPos : Int × Int
deriving Repr, DecidableEq

/-- Squared Euclidean distance between two pixel positions. -/
def sqNorm (p q : Int × Int) : Int := (p.1 - q.1) ^ 2 + (p.2 - q.2) ^ 2

/-- Modelled from the spec: the keep predicate of `Tracker::UpdatePyrLK`
(declared at tracker.h line 131, body not in `src/`): a feature is kept
iff the backend reports success and the Euclidean displacement between
old and new position does not exceed `max_pixel_displacement_`
(tracker.h lines 76-77: pixels shifted larger than this amount are
dropped). Displacement is compared via squares, equivalent to the
Euclidean comparison for a nonnegative bound. -/
def keepTrack (maxDisp : Int) (f : Feature) (r : TrackResult) : Bool :=
  r.success && decide (sqNorm r.newPos f.pos ≤ maxDisp ^ 2)

/-- Modelled from the spec: the propagation pass of `Tracker::UpdatePyrLK`
over the active features paired with their backend results. Each feature
is kept (with its position updated to the tracked position) or moved to
the dropped set, per `keepTrack`. Returns `(kept, dropped)`. -/
def updatePyrLK (maxDisp : Int) :
    List (Feature × TrackResult) → List Feature × List Feature
  | [] => ([], [])
  | (f, r) :: rest =>
    if keepTrack maxDisp f r then
      ({ f with pos := r.newPos } :: (updatePyrLK maxDisp rest).1,
       (updatePyrLK maxDisp rest).2)
    else
      ((updatePyrLK maxDisp rest).1, f :: (updatePyrLK maxDisp rest).2)

/-! ## Tracker: dropped-track recovery -/

/-- Modelled from the spec: the brute-force scan of
`Tracker::FindMatchInDroppedTracks` (declared at tracker.h lines 135-136,
body not in `src/`), generic in the descriptor distance `d`. The
accumulator holds the best candidate so far with its distance; a later
candidate replaces it only when strictly closer, so exact ties go to the
first-encountered entry. -/
def scanBest (d : List Int → List Int → Nat) (q : List Int) :
    Option (Feature × Nat) → List Feature → Option (Feature × Nat)
  | best, [] => best
  | none, f :: rest => scanBest d q (some (f, d q f.desc)) rest
  | some (g, dg), f :: rest =>
      if d q f.desc < dg then scanBest d q (some (f, d q f.desc)) rest
      else scanBest d q (some (g, dg)) rest

/-- Modelled from the spec: `Tracker::FindMatchInDroppedTracks` — nearest
neighbor of the query descriptor `q` in the dropped pool
(`newly_dropped_tracks_`, tracker.h line 125) under distance `d`; the
best match is returned only when its distance is strictly below
`descriptor_distance_thresh_` (tracker.h line 75), and the matched entry
is removed from the pool. Returns the optional match and the remaining
pool. -/
def findMatchInDroppedTracks (d : List Int → List Int → Nat) (thresh : Nat)
    (q : List Int) (pool : List Feature) : Option Feature × List Feature :=
  match scanBest d q none pool with
  | some (f, df) => if df < thresh then (some f, pool.erase f) else (none, pool)
  | none => (none, pool)

/-- Modelled from the spec: the recovery step of `Tracker::Detect` for one
accepted keypoint at `kpPos` with descriptor `kpDesc`: on a successful
dropped-track match the existing Feature is reused — same identifier,
position and descriptor updated to the new detection; otherwise a brand
new Feature takes the fresh identifier `nextId`. Returns the resulting
feature, the remaining dropped pool, and the next fresh identifier. -/
def recoverOrNew (d : List Int → List Int → Nat) (thresh : Nat) (nextId : Nat)
    (kpPos : Int × Int) (kpDesc : List Int) (pool : List Feature) :
    Feature × List Feature × Nat :=
  match findMatchInDroppedTracks d thresh kpDesc pool with
  | (some f, rest) => ({ f with pos := kpPos, desc := kpDesc }, rest, nextId)
  | (none, rest) => (⟨nextId, kpPos, kpDesc⟩, rest, nextId + 1)

/-- A concrete descriptor distance (L1) used to instantiate the generic
matching model on concrete inputs. -/
def descDistL1 (a b : List Int) : Nat :=
  (List.zipWith (fun x y => (x - y).natAbs) a b).sum

/-! ## Tracker: feature identifier lifecycle -/

/-- Modelled from the spec: the identifier-relevant tracker state — the
fresh-identifier counter and the identifiers of the active
(`features_`), dropped-this-frame (`newly_dropped_tracks_`) and
destroyed features. -/
structure TrackerIds where
  nextId : Nat
  active : List Nat
  dropped : List Nat
  destroyed : List Nat
deriving Repr, DecidableEq

/-- Modelled from the spec: the identifier-level transitions of the
tracker across frames: a tracked feature is dropped by the optical-flow
backend; a new detection takes the fresh identifier; a detection matched
against the dropped pool recovers that identifier; a dropped feature not
recovered is destroyed. -/
inductive TrackerStep : TrackerIds → TrackerIds → Prop where
  | dropFeature (s : TrackerIds) (i : Nat) (h : i ∈ s.active) :
      TrackerStep s ⟨s.nextId, s.active.erase i, i :: s.dropped, s.destroyed⟩
  | detectNew (s : TrackerIds) :
      TrackerStep s ⟨s.nextId + 1, s.nextId :: s.active, s.dropped, s.destroyed⟩
  | recover (s : TrackerIds) (i : Nat) (h : i ∈ s.dropped) :
      TrackerStep s ⟨s.nextId, i :: s.active, s.dropped.erase i, s.destroyed⟩
  | destroyDropped (s : TrackerIds) (i : Nat) (h : i ∈ s.dropped) :
      TrackerStep s ⟨s.nextId, s.active, s.dropped.erase i, i :: s.destroyed⟩

/-- The empty initial tracker state. -/
def initTrackerIds : TrackerIds := ⟨0, [], [], []⟩

/-- States reachable from the initial tracker state. -/
inductive Reachable : TrackerIds → Prop where
  | init : Reachable initTrackerIds
  | step {s t : TrackerIds} : Reachable s → TrackerStep s t → Reachable t

/-- Zero or more tracker steps. -/
inductive Steps : TrackerIds → TrackerIds → Prop where
  | refl (s : TrackerIds) : Steps s s
  | tail {s t u : TrackerIds} : Steps s t → TrackerStep t u → Steps s u

/-- The identifier invariant: active and dropped identifier lists are
duplicate-free, the three collections are pairwise disjoint, and every
identifier ever issued is below the fresh counter. -/
def IdInv (s : TrackerIds) : Prop :=
  s.active.Nodup ∧ s.dropped.Nodup ∧
  (∀ i ∈ s.active, i ∉ s.dropped) ∧
  (∀ i ∈ s.active, i ∉ s.destroyed) ∧
  (∀ i ∈ s.dropped, i ∉ s.destroyed) ∧
  (∀ i ∈ s.active, i < s.nextId) ∧
  (∀ i ∈ s.dropped, i < s.nextId) ∧
  (∀ i ∈ s.destroyed, i < s.nextId)

/-! ## Tracker: replenishment -/

/-- Modelled from the spec: the replenishment step at the end of
`Tracker::Update` — when the post-propagation active count is below
`num_features_min_` (tracker.h line 119), `Tracker::Detect` (tracker.h
line 133) is invoked to top the active set up toward
`num_features_max_`, accepting at most `num_features_max_ - active`
of the detector's candidates; otherwise the active set is unchanged. -/
def replenish (nmin nmax : Nat) (active detections : List Feature) :
    List Feature :=
  if active.length < nmin then active ++ detections.take (nmax - active.length)
  else active

/-! ## Mask helpers -/

/-- Modelled from the spec: `MaskValid(mask, x, y)` (declared at tracker.h
lines 149-151, body not in `src/`): true iff `(x, y)` lies at least
`margin` pixels from every edge of the `rows × cols` image and maps to an
allowed (white) pixel of the mask, whose dimensions are
`(rows - 2*margin) × (cols - 2*margin)` (tracker.h lines 98-106) so that
image coordinate `(x, y)` maps to mask pixel `(y - margin, x - margin)`.
The mask content is the boolean pixel map `pix` (row, column);
coordinates are the integer pixel model of the floating-point inputs. -/
def MaskValid (rows cols margin : Nat) (pix : Nat → Nat → Bool)
    (x y : Int) : Bool :=
  decide ((margin : Int) ≤ x) && decide (x + margin + 1 ≤ (cols : Int)) &&
  decide ((margin : Int) ≤ y) && decide (y + margin + 1 ≤ (rows : Int)) &&
  pix (y - margin).toNat (x - margin).toNat

/-! ## Tracker singleton -/

/-- The per-process Tracker singleton state: identities of the live
Tracker objects, the pointer held by the static
`std::unique_ptr<Tracker> instance_` (tracker.h line 67), and a fresh
object identity. The copy constructor and copy assignment are deleted and
the constructor is private (tracker.h lines 63-66), so the only way a
Tracker object comes into existence is `Tracker::Create`, which is
modelled below as resetting `instance_` to a freshly constructed object
(the `unique_ptr` destroys any previous one). -/
structure TrackerProcState where
  live : List Nat
  inst : Option Nat
  fresh : Nat
deriving Repr, DecidableEq

/-- Process state before any `Tracker::Create` call: no live Tracker,
`instance_` null. -/
def initTrackerProc : TrackerProcState := ⟨[], none, 0⟩

/-- Embedding of `Tracker::Create`: constructs the sole new Tracker and
stores it in `instance_`, destroying any previously held one. -/
def trackerCreate (s : TrackerProcState) : TrackerProcState :=
  { live := [s.fresh], inst := some s.fresh, fresh := s.fresh + 1 }

/-- Embedding of `Tracker::instance()` (tracker.h line 51):
`return instance_.get()` — the held pointer, null when `Create` was
never called. -/
def trackerInstance (s : TrackerProcState) : Option Nat := s.inst

/-- The operations a process may perform on the Tracker singleton:
`Tracker::Create(cfg)` or `Tracker::instance()` (a read, leaving the
state unchanged). Construction by any other means is impossible: the
constructor is private and copying is deleted. -/
inductive TrackerOp where
  | create
  | query
deriving Repr, DecidableEq

/-- Runs a sequence of singleton operations from a state. -/
def runTrackerOps : List TrackerOp → TrackerProcState → TrackerProcState
  | [], s => s
  | .create :: rest, s => runTrackerOps rest (trackerCreate s)
  | .query :: rest, s => runTrackerOps rest s

/-- A sample feature used to instantiate theorems on concrete inputs. -/
def sampleFeature : Feature := ⟨0, (0, 0), []⟩

/-! ## Theorems -/

/-- C5: for a visual measurement not consumed by the base handler, the
canvas publish happens iff the visualization flag is set and `publisher_`
is registered; the pose, map and full-state publishes each happen iff the
corresponding publisher is registered, independently of the visualization
flag and of each other. -/
theorem visual_publish_gating (pubs : Publishers) (ts : Nat) (viz : Bool) :
    (Action.publish .vizPublisher .canvasImage ∈
        (handle pubs false (.visualMeas ts viz)).1 ↔
      viz = true ∧ pubs.vizReg = true) ∧
    (Action.publish .posePublisher .poseState ∈
        (handle pubs false (.visualMeas ts viz)).1 ↔ pubs.poseReg = true) ∧
    (Action.publish .mapPublisher .mapState ∈
        (handle pubs false (.visualMeas ts viz)).1 ↔ pubs.mapReg = true) ∧
    (Action.publish .fullStatePublisher .fullState ∈
        (handle pubs false (.visualMeas ts viz)).1 ↔
      pubs.fullStateReg = true) := by
  rcases pubs with ⟨v, p, mp, fs⟩
  cases viz <;> cases v <;> cases p <;> cases mp <;> cases fs <;>
    simp [handle]

/-- C4 counterexample: an inertial message with the visualization flag
set, the pose publisher registered and `publisher_` null produces no
publish at all — in particular no publish through `pose_publisher_`,
contradicting the claim that a pose publish happens iff the flag is set
and the pose publisher is registered. -/
theorem inertial_pose_gating_counterexample :
    (handle ⟨false, true, false, false⟩ false
        (.inertialMeas 0 true)).1 = [Action.execute] ∧
    Action.publish PubMember.posePublisher Payload.poseState ∉
      (handle ⟨false, true, false, false⟩ false
        (.inertialMeas 0 true)).1 := by
  decide

/-- C4 amended: for an inertial measurement not consumed by the base
handler, the only publish is a pose-state publish through `publisher_`
(the member used for the canvas in the visual branch), and it happens iff
the visualization flag is set and `publisher_` is registered; no publish
through `pose_publisher_`, `map_publisher_` or `full_state_publisher_`
occurs. -/
theorem inertial_publish_gating (pubs : Publishers) (ts : Nat) (viz : Bool) :
    (Action.publish .vizPublisher .poseState ∈
        (handle pubs false (.inertialMeas ts viz)).1 ↔
      viz = true ∧ pubs.vizReg = true) ∧
    ((handle pubs false (.inertialMeas ts viz)).1 = [Action.execute] ∨
     (handle pubs false (.inertialMeas ts viz)).1 =
       [Action.execute, Action.publish .vizPublisher .poseState]) := by
  rcases pubs with ⟨v, p, mp, fs⟩
  cases viz <;> cases v <;> simp [handle]

/-- C9: every message not consumed by `Process::Handle` is executed
against the estimator exactly once, before any publisher dispatch; a
message that is neither visual nor inertial is still executed, after
which `Handle` returns `false`; and a message consumed by the base
handler is neither executed nor published. -/
theorem handle_executes_once (pubs : Publishers) (m : EstimatorMessage)
    (ts : Nat) :
    (handle pubs false m).1.head? = some Action.execute ∧
    (handle pubs false m).1.count Action.execute = 1 ∧
    handle pubs false (.other ts) = ([Action.execute], false) ∧
    handle pubs true m = ([], true) := by
  refine ⟨?_, ?_, by simp [handle], by simp [handle]⟩ <;>
  · rcases pubs with ⟨v, p, mp, fs⟩
    cases m with
    | visualMeas t viz =>
        cases viz <;> cases v <;> cases p <;> cases mp <;> cases fs <;>
          simp [handle]
    | inertialMeas t viz => cases viz <;> cases v <;> simp [handle]
    | other t => simp [handle]

/-- C8: `MaskValid` is true iff the coordinate is at least `margin`
pixels from every image edge and the mapped mask pixel is allowed; any
coordinate within `margin` pixels of some edge is rejected whatever the
mask contents are. -/
theorem maskValid_characterization (rows cols margin : Nat)
    (pix : Nat → Nat → Bool) (x y : Int) :
    (MaskValid rows cols margin pix x y = true ↔
      ((margin : Int) ≤ x ∧ x + margin + 1 ≤ (cols : Int) ∧
       (margin : Int) ≤ y ∧ y + margin + 1 ≤ (rows : Int) ∧
       pix (y - margin).toNat (x - margin).toNat = true)) ∧
    ((x < (margin : Int) ∨ (cols : Int) < x + margin + 1 ∨
      y < (margin : Int) ∨ (rows : Int) < y + margin + 1) →
      ∀ pix2 : Nat → Nat → Bool,
        MaskValid rows cols margin pix2 x y = false) := by
  constructor
  · simp [MaskValid, and_assoc]
  · intro h pix2
    rw [Bool.eq_false_iff]
    intro habs
    simp only [MaskValid, Bool.and_eq_true, decide_eq_true_eq] at habs
    rcases habs with ⟨⟨⟨⟨h1, h2⟩, h3⟩, h4⟩, _⟩
    rcases h with h | h | h | h <;> omega

/-- C8 witness: a point on the left border of a 10×10 image with margin 2
is rejected even for an all-white mask. -/
theorem maskValid_characterization_witness :
    MaskValid 10 10 2 (fun _ _ => true) 0 5 = false :=
  (maskValid_characterization 10 10 2 (fun _ _ => true) 0 5).2
    (Or.inl (by decide)) (fun _ _ => true)

/-- C7: assuming the post-propagation active count is within
`num_features_max` and `num_features_min ≤ num_features_max`, the active
count after replenishment never exceeds `num_features_max`; when the
count was below `num_features_min`, detection drives it back to at least
`min num_features_min detector_yield`; and when it was not below the
minimum, no detection occurs. -/
theorem replenish_bounds (nmin nmax : Nat) (active detections : List Feature)
    (hcount : active.length ≤ nmax) (hminmax : nmin ≤ nmax) :
    (replenish nmin nmax active detections).length ≤ nmax ∧
    (active.length < nmin →
      min nmin detections.length ≤
        (replenish nmin nmax active detections).length) ∧
    (nmin ≤ active.length →
      replenish nmin nmax active detections = active) := by
  unfold replenish
  refine ⟨?_, ?_, ?_⟩
  · split
    · simp [List.length_take]; omega
    · omega
  · intro h
    split
    · simp [List.length_take]; omega
    · omega
  · intro h
    split
    · omega
    · rfl

/-- C7 witness: two active features, bounds 5/10, a detector yield of
four candidates. -/
theorem replenish_bounds_witness :
    ([sampleFeature, sampleFeature] : List Feature).length ≤ 10 ∧ 5 ≤ 10 ∧
      ((replenish 5 10 [sampleFeature, sampleFeature] [sampleFeature, sampleFeature, sampleFeature, sampleFeature]).length ≤ 10 ∧
       (([sampleFeature, sampleFeature] : List Feature).length < 5 →
         min 5 ([sampleFeature, sampleFeature, sampleFeature, sampleFeature] : List Feature).length ≤
           (replenish 5 10 [sampleFeature, sampleFeature] [sampleFeature, sampleFeature, sampleFeature, sampleFeature]).length) ∧
       (5 ≤ ([sampleFeature, sampleFeature] : List Feature).length →
         replenish 5 10 [sampleFeature, sampleFeature] [sampleFeature, sampleFeature, sampleFeature, sampleFeature] = [sampleFeature, sampleFeature])) :=
  ⟨by decide, by decide,
    replenish_bounds 5 10 [sampleFeature, sampleFeature] [sampleFeature, sampleFeature, sampleFeature, sampleFeature] (by decide) (by decide)⟩

/-- C10: over any sequence of singleton operations starting from the
fresh process, at most one Tracker object is ever live; `instance()`
returns null iff `Create` was never called; and whenever `instance()`
returns an object, that object is the unique live Tracker. -/
theorem tracker_singleton (ops : List TrackerOp) :
    (runTrackerOps ops initTrackerProc).live.length ≤ 1 ∧
    (trackerInstance (runTrackerOps ops initTrackerProc) = none ↔
      TrackerOp.create ∉ ops) ∧
    (∀ i, trackerInstance (runTrackerOps ops initTrackerProc) = some i →
      (runTrackerOps ops initTrackerProc).live = [i]) := by
  have hrun : ∀ (l : List TrackerOp) (s : TrackerProcState),
      (s.live.length ≤ 1 ∧ ∀ i, s.inst = some i → s.live = [i]) →
      ((runTrackerOps l s).live.length ≤ 1 ∧
        ∀ i, (runTrackerOps l s).inst = some i →
          (runTrackerOps l s).live = [i]) := by
    intro l
    induction l with
    | nil => intro s hs; exact hs
    | cons op rest ih =>
        intro s hs
        cases op with
        | create =>
            refine ih (trackerCreate s) ⟨by simp [trackerCreate], ?_⟩
            intro i hi
            simp [trackerCreate] at hi ⊢
            omega
        | query => exact ih s hs
  have hnone : ∀ (l : List TrackerOp) (s : TrackerProcState),
      ((runTrackerOps l s).inst = none ↔
        (s.inst = none ∧ TrackerOp.create ∉ l)) := by
    intro l
    induction l with
    | nil => intro s; simp [runTrackerOps]
    | cons op rest ih =>
        intro s
        cases op with
        | create =>
            simp [runTrackerOps, ih, trackerCreate]
        | query =>
            simp [runTrackerOps, ih s]
  have h1 := hrun ops initTrackerProc
    ⟨by simp [initTrackerProc], by simp [initTrackerProc]⟩
  refine ⟨h1.1, ?_, h1.2⟩
  rw [show trackerInstance (runTrackerOps ops initTrackerProc) =
        (runTrackerOps ops initTrackerProc).inst from rfl,
      hnone ops initTrackerProc]
  simp [initTrackerProc]

/-- C10 witness: after a single `Create`, `instance()` returns the sole
live Tracker object. -/
theorem tracker_singleton_witness :
    (runTrackerOps [TrackerOp.create] initTrackerProc).live = [0] :=
  (tracker_singleton [TrackerOp.create]).2.2 0 rfl

/-- C6: in the order in which the dispatch loop drains queued messages,
any message with a strictly smaller timestamp is executed earlier, and
earlier-drained messages compare below later ones under `msgLe` — in
particular messages with equal timestamps are kept in arrival order, a
stable, deterministic tie-break. -/
theorem drain_ascending (q : List QMsg) (i j : Nat)
    (hi : i < (drainOrder q).length) (hj : j < (drainOrder q).length) :
    (((drainOrder q).get ⟨i, hi⟩).ts < ((drainOrder q).get ⟨j, hj⟩).ts →
      i < j) ∧
    (i < j →
      msgLe ((drainOrder q).get ⟨i, hi⟩) ((drainOrder q).get ⟨j, hj⟩)) := by
  have hs : List.Sorted msgLe (drainOrder q) :=
    List.sorted_insertionSort msgLe q
  constructor
  · intro hts
    by_contra hij
    have hji : j ≤ i := Nat.le_of_not_lt hij
    rcases Nat.eq_or_lt_of_le hji with heq | hlt
    · subst heq
      exact lt_irrefl _ hts
    · have hrel := hs.rel_get_of_lt
        (show (⟨j, hj⟩ : Fin (drainOrder q).length) < ⟨i, hi⟩ from hlt)
      unfold msgLe msgLt at hrel
      omega
  · intro hij
    exact hs.rel_get_of_lt (show (⟨i, hi⟩ : Fin _) < ⟨j, hj⟩ from hij)

/-- C6 witness: of two queued messages with timestamps 2 and 1, the one
with timestamp 1 is drained first. -/
theorem drain_ascending_witness :
    (0 : Nat) < 1 ∧
      msgLe ((drainOrder [⟨2, 0⟩, ⟨1, 1⟩]).get ⟨0, by decide⟩)
        ((drainOrder [⟨2, 0⟩, ⟨1, 1⟩]).get ⟨1, by decide⟩) :=
  ⟨(drain_ascending [⟨2, 0⟩, ⟨1, 1⟩] 0 1 (by decide) (by decide)).1
      (by decide),
   (drain_ascending [⟨2, 0⟩, ⟨1, 1⟩] 0 1 (by decide) (by decide)).2
      (by decide)⟩

/-- The keep predicate holds iff the backend succeeded and the squared
displacement is within the squared bound. -/
theorem keepTrack_eq_true_iff (m : Int) (f : Feature) (r : TrackResult) :
    keepTrack m f r = true ↔
      (r.success = true ∧ sqNorm r.newPos f.pos ≤ m ^ 2) := by
  simp [keepTrack]

/-- The keep predicate fails iff the backend failed or the squared
displacement exceeds the squared bound. -/
theorem keepTrack_eq_false_iff (m : Int) (f : Feature) (r : TrackResult) :
    keepTrack m f r = false ↔
      (r.success = false ∨ m ^ 2 < sqNorm r.newPos f.pos) := by
  cases hs : r.success <;> simp [keepTrack, hs, Int.not_le]

/-- A tracked pair passing the keep predicate lands in the kept set. -/
theorem updatePyrLK_mem_kept_of (m : Int) :
    ∀ (l : List (Feature × TrackResult)) (f : Feature) (r : TrackResult),
      (f, r) ∈ l → keepTrack m f r = true →
      { f with pos := r.newPos } ∈ (updatePyrLK m l).1 := by
  intro l
  induction l with
  | nil => intro f r h _; cases h
  | cons hd tl ih =>
      intro f r hmem hk
      obtain ⟨f0, r0⟩ := hd
      rcases List.mem_cons.mp hmem with heq | htl
      · obtain ⟨rfl, rfl⟩ := Prod.mk.injEq .. ▸ heq
        simp [updatePyrLK, hk]
      · cases hk0 : keepTrack m f0 r0
        · simpa [updatePyrLK, hk0] using ih f r htl hk
        · simp only [updatePyrLK, hk0, if_true, List.mem_cons]
          exact Or.inr (ih f r htl hk)

/-- A tracked pair failing the keep predicate lands in the dropped set. -/
theorem updatePyrLK_mem_dropped_of (m : Int) :
    ∀ (l : List (Feature × TrackResult)) (f : Feature) (r : TrackResult),
      (f, r) ∈ l → keepTrack m f r = false →
      f ∈ (updatePyrLK m l).2 := by
  intro l
  induction l with
  | nil => intro f r h _; cases h
  | cons hd tl ih =>
      intro f r hmem hk
      obtain ⟨f0, r0⟩ := hd
      rcases List.mem_cons.mp hmem with heq | htl
      · obtain ⟨rfl, rfl⟩ := Prod.mk.injEq .. ▸ heq
        simp [updatePyrLK, hk]
      · cases hk0 : keepTrack m f0 r0 <;>
          simp [updatePyrLK, hk0, ih f r htl hk]

/-- Every member of the kept set arises from a tracked pair that passed
the keep predicate, with its position updated. -/
theorem updatePyrLK_kept_src (m : Int) :
    ∀ (l : List (Feature × TrackResult)) (g : Feature),
      g ∈ (updatePyrLK m l).1 →
      ∃ f r, (f, r) ∈ l ∧ keepTrack m f r = true ∧
        g = { f with pos := r.newPos } := by
  intro l
  induction l with
  | nil => intro g h; simp [updatePyrLK] at h
  | cons hd tl ih =>
      intro g hg
      obtain ⟨f0, r0⟩ := hd
      cases hk0 : keepTrack m f0 r0
      · simp only [updatePyrLK, hk0, Bool.false_eq_true, if_false] at hg
        obtain ⟨f, r, hmem, hk, hgeq⟩ := ih g hg
        exact ⟨f, r, List.mem_cons_of_mem _ hmem, hk, hgeq⟩
      · simp only [updatePyrLK, hk0, if_true, List.mem_cons] at hg
        rcases hg with hgeq | hg
        · exact ⟨f0, r0, List.mem_cons_self .., hk0, hgeq⟩
        · obtain ⟨f, r, hmem, hk, hgeq⟩ := ih g hg
          exact ⟨f, r, List.mem_cons_of_mem _ hmem, hk, hgeq⟩

/-- Every member of the dropped set arises from a tracked pair that
failed the keep predicate. -/
theorem updatePyrLK_dropped_src (m : Int) :
    ∀ (l : List (Feature × TrackResult)) (g : Feature),
      g ∈ (updatePyrLK m l).2 →
      ∃ r, (g, r) ∈ l ∧ keepTrack m g r = false := by
  intro l
  induction l with
  | nil => intro g h; simp [updatePyrLK] at h
  | cons hd tl ih =>
      intro g hg
      obtain ⟨f0, r0⟩ := hd
      cases hk0 : keepTrack m f0 r0
      · simp only [updatePyrLK, hk0, Bool.false_eq_true, if_false,
          List.mem_cons] at hg
        rcases hg with hgeq | hg
        · subst hgeq
          exact ⟨r0, List.mem_cons_self .., hk0⟩
        · obtain ⟨r, hmem, hk⟩ := ih g hg
          exact ⟨r, List.mem_cons_of_mem _ hmem, hk⟩
      · simp only [updatePyrLK, hk0, if_true] at hg
        obtain ⟨r, hmem, hk⟩ := ih g hg
        exact ⟨r, List.mem_cons_of_mem _ hmem, hk⟩

/-- C1: in the pyramidal backend, a tracked feature is kept (with its
position updated) iff the backend reported success and the Euclidean
displacement does not exceed the bound; a feature failing either
condition goes to the dropped set; every kept feature arises from a
successful in-bound track and every dropped feature from a failed or
out-of-bound one. -/
theorem pyrlk_keep_iff (maxDisp : Int)
    (tracked : List (Feature × TrackResult)) :
    (∀ f r, (f, r) ∈ tracked → r.success = true →
      sqNorm r.newPos f.pos ≤ maxDisp ^ 2 →
      { f with pos := r.newPos } ∈ (updatePyrLK maxDisp tracked).1) ∧
    (∀ f r, (f, r) ∈ tracked →
      (r.success = false ∨ maxDisp ^ 2 < sqNorm r.newPos f.pos) →
      f ∈ (updatePyrLK maxDisp tracked).2) ∧
    (∀ g, g ∈ (updatePyrLK maxDisp tracked).1 →
      ∃ f r, (f, r) ∈ tracked ∧ r.success = true ∧
        sqNorm r.newPos f.pos ≤ maxDisp ^ 2 ∧
        g = { f with pos := r.newPos }) ∧
    (∀ g, g ∈ (updatePyrLK maxDisp tracked).2 →
      ∃ r, (g, r) ∈ tracked ∧
        (r.success = false ∨ maxDisp ^ 2 < sqNorm r.newPos g.pos)) := by
  refine ⟨?_, ?_, ?_, ?_⟩
  · intro f r hmem hsucc hdisp
    exact updatePyrLK_mem_kept_of maxDisp tracked f r hmem
      ((keepTrack_eq_true_iff maxDisp f r).mpr ⟨hsucc, hdisp⟩)
  · intro f r hmem hfail
    exact updatePyrLK_mem_dropped_of maxDisp tracked f r hmem
      ((keepTrack_eq_false_iff maxDisp f r).mpr hfail)
  · intro g hg
    obtain ⟨f, r, hmem, hk, hgeq⟩ := updatePyrLK_kept_src maxDisp tracked g hg
    obtain ⟨hsucc, hdisp⟩ := (keepTrack_eq_true_iff maxDisp f r).mp hk
    exact ⟨f, r, hmem, hsucc, hdisp, hgeq⟩
  · intro g hg
    obtain ⟨r, hmem, hk⟩ := updatePyrLK_dropped_src maxDisp tracked g hg
    exact ⟨r, hmem, (keepTrack_eq_false_iff maxDisp g r).mp hk⟩

/-- C1 witness: with displacement bound 2, a successful track moving one
pixel is kept at its new position. -/
theorem pyrlk_keep_iff_witness :
    ({ id := 3, pos := (1, 0), desc := [] } : Feature) ∈
      (updatePyrLK 2 [(⟨3, (0, 0), []⟩, ⟨true, (1, 0)⟩)]).1 :=
  (pyrlk_keep_iff 2 [(⟨3, (0, 0), []⟩, ⟨true, (1, 0)⟩)]).1
    ⟨3, (0, 0), []⟩ ⟨true, (1, 0)⟩ (by decide) (by decide) (by decide)

/-- The identifier invariant holds in the initial tracker state. -/
theorem idInv_init : IdInv initTrackerIds := by
  simp [IdInv, initTrackerIds]

/-- Every tracker step preserves the identifier invariant. -/
theorem idInv_step {s t : TrackerIds} (hinv : IdInv s)
    (hstep : TrackerStep s t) : IdInv t := by
  obtain ⟨hA, hD, hAD, hAX, hDX, hAb, hDb, hXb⟩ := hinv
  cases hstep with
  | dropFeature i hi =>
      refine ⟨hA.erase i, ?_, ?_, ?_, ?_, ?_, ?_, hXb⟩
      · exact List.Nodup.cons (hAD i hi) hD
      · intro j hj
        have hj2 := (hA.mem_erase_iff).mp hj
        intro hmem
        rcases List.mem_cons.mp hmem with rfl | hmem2
        · exact hj2.1 rfl
        · exact hAD j hj2.2 hmem2
      · intro j hj
        exact hAX j (List.mem_of_mem_erase hj)
      · intro j hj
        rcases List.mem_cons.mp hj with rfl | hj2
        · exact hAX j hi
        · exact hDX j hj2
      · intro j hj
        exact hAb j (List.mem_of_mem_erase hj)
      · intro j hj
        rcases List.mem_cons.mp hj with rfl | hj2
        · exact hAb j hi
        · exact hDb j hj2
  | detectNew =>
      refine ⟨?_, hD, ?_, ?_, hDX, ?_, ?_, ?_⟩
      · exact List.Nodup.cons (fun h => Nat.lt_irrefl _ (hAb _ h)) hA
      · intro j hj
        rcases List.mem_cons.mp hj with rfl | hj2
        · intro hmem
          exact Nat.lt_irrefl _ (hDb _ hmem)
        · exact hAD j hj2
      · intro j hj
        rcases List.mem_cons.mp hj with rfl | hj2
        · intro hmem
          exact Nat.lt_irrefl _ (hXb _ hmem)
        · exact hAX j hj2
      · intro j hj
        rcases List.mem_cons.mp hj with rfl | hj2
        · exact Nat.lt_succ_self _
        · exact Nat.lt_succ_of_lt (hAb j hj2)
      · intro j hj
        exact Nat.lt_succ_of_lt (hDb j hj)
      · intro j hj
        exact Nat.lt_succ_of_lt (hXb j hj)
  | recover i hi =>
      refine ⟨?_, hD.erase i, ?_, ?_, ?_, ?_, ?_, hXb⟩
      · exact List.Nodup.cons (fun h => hAD i h hi) hA
      · intro j hj
        rcases List.mem_cons.mp hj with rfl | hj2
        · intro hmem
          exact ((hD.mem_erase_iff).mp hmem).1 rfl
        · intro hmem
          exact hAD j hj2 (List.mem_of_mem_erase hmem)
      · intro j hj
        rcases List.mem_cons.mp hj with rfl | hj2
        · exact hDX j hi
        · exact hAX j hj2
      · intro j hj
        exact hDX j (List.mem_of_mem_erase hj)
      · intro j hj
        rcases List.mem_cons.mp hj with rfl | hj2
        · exact hDb j hi
        · exact hAb j hj2
      · intro j hj
        exact hDb j (List.mem_of_mem_erase hj)
  | destroyDropped i hi =>
      refine ⟨hA, hD.erase i, ?_, ?_, ?_, hAb, ?_, ?_⟩
      · intro j hj hmem
        exact hAD j hj (List.mem_of_mem_erase hmem)
      · intro j hj
        intro hmem
        rcases List.mem_cons.mp hmem with rfl | hmem2
        · exact hAD j hj hi
        · exact hAX j hj hmem2
      · intro j hj
        have hj2 := (hD.mem_erase_iff).mp hj
        intro hmem
        rcases List.mem_cons.mp hmem with rfl | hmem2
        · exact hj2.1 rfl
        · exact hDX j hj2.2 hmem2
      · intro j hj
        exact hDb j (List.mem_of_mem_erase hj)
      · intro j hj
        rcases List.mem_cons.mp hj with rfl | hj2
        · exact hDb j hi
        · exact hXb j hj2

/-- Every reachable tracker state satisfies the identifier invariant. -/
theorem reachable_idInv {s : TrackerIds} (hs : Reachable s) : IdInv s := by
  induction hs with
  | init => exact idInv_init
  | step _ hstep ih => exact idInv_step ih hstep

/-- Reachability is preserved along step sequences. -/
theorem steps_reachable {s t : TrackerIds} (hs : Reachable s)
    (hst : Steps s t) : Reachable t := by
  induction hst with
  | refl => exact hs
  | tail _ hstep ih => exact Reachable.step ih hstep

/-- The destroyed set only grows along tracker steps. -/
theorem destroyed_mono {s t : TrackerIds} (hst : Steps s t) :
    ∀ i ∈ s.destroyed, i ∈ t.destroyed := by
  induction hst with
  | refl => exact fun i hi => hi
  | tail _ hstep ih =>
      intro i hi
      have hmid := ih i hi
      cases hstep with
      | dropFeature j hj => exact hmid
      | detectNew => exact hmid
      | recover j hj => exact hmid
      | destroyDropped j hj => exact List.mem_cons_of_mem _ hmid

/-- C3: in every reachable tracker state the active identifiers are
pairwise distinct, and an identifier destroyed in a reachable state stays
destroyed and is never an active identifier in any later state. -/
theorem tracker_id_unique (s t : TrackerIds) (hs : Reachable s)
    (hst : Steps s t) (i : Nat) :
    s.active.Nodup ∧
    (i ∈ s.destroyed → i ∈ t.destroyed ∧ i ∉ t.active) := by
  have hinvs := reachable_idInv hs
  have hinvt := reachable_idInv (steps_reachable hs hst)
  refine ⟨hinvs.1, fun hid => ⟨destroyed_mono hst i hid, fun hact => ?_⟩⟩
  exact hinvt.2.2.2.1 i hact (destroyed_mono hst i hid)

/-- C3 witness: from the initial state, after detecting feature 0,
dropping it and destroying it, identifier 0 is destroyed and absent from
the active set of the resulting state. -/
theorem tracker_id_unique_witness :
    (⟨1, [], [0], []⟩ : TrackerIds).active.Nodup ∧
      ((0 : Nat) ∈ (⟨1, [], [0], []⟩ : TrackerIds).destroyed →
        (0 : Nat) ∈ (⟨1, [], [], [0]⟩ : TrackerIds).destroyed ∧
        (0 : Nat) ∉ (⟨1, [], [], [0]⟩ : TrackerIds).active) :=
  tracker_id_unique ⟨1, [], [0], []⟩ ⟨1, [], [], [0]⟩
    (Reachable.step
      (Reachable.step Reachable.init (TrackerStep.detectNew initTrackerIds))
      (TrackerStep.dropFeature ⟨1, [0], [], []⟩ 0 (by decide)))
    (Steps.tail (Steps.refl _)
      (TrackerStep.destroyDropped ⟨1, [], [0], []⟩ 0 (by decide)))
    0

/-- The accumulator scan returns the first-encountered minimum: starting
from candidate `g`, the result is an element `f` of `g :: l` whose
distance is minimal over `g :: l`, and every element before `f` in
`g :: l` is strictly farther from the query. -/
theorem scanBest_acc (d : List Int → List Int → Nat) (q : List Int) :
    ∀ (l : List Feature) (g : Feature),
      ∃ f L1 L2,
        scanBest d q (some (g, d q g.desc)) l = some (f, d q f.desc) ∧
        g :: l = L1 ++ f :: L2 ∧
        (∀ x ∈ L1, d q f.desc < d q x.desc) ∧
        (∀ x ∈ g :: l, d q f.desc ≤ d q x.desc) := by
  intro l
  induction l with
  | nil =>
      intro g
      refine ⟨g, [], [], rfl, rfl, by simp, ?_⟩
      intro x hx
      rcases List.mem_cons.mp hx with rfl | hx2
      · exact Nat.le_refl _
      · cases hx2
  | cons f0 rest ih =>
      intro g
      by_cases hlt : d q f0.desc < d q g.desc
      · obtain ⟨f, L1, L2, heq, hdecomp, hstrict, hmin⟩ := ih f0
        refine ⟨f, g :: L1, L2, ?_, ?_, ?_, ?_⟩
        · simp only [scanBest, if_pos hlt]
          exact heq
        · rw [List.cons_append, ← hdecomp]
        · intro x hx
          rcases List.mem_cons.mp hx with rfl | hx2
          · calc d q f.desc ≤ d q f0.desc :=
                  hmin f0 (List.mem_cons_self ..)
              _ < d q x.desc := hlt
          · exact hstrict x hx2
        · intro x hx
          rcases List.mem_cons.mp hx with rfl | hx2
          · exact Nat.le_of_lt
              (Nat.lt_of_le_of_lt (hmin f0 (List.mem_cons_self ..)) hlt)
          · exact hmin x hx2
      · obtain ⟨f, L1, L2, heq, hdecomp, hstrict, hmin⟩ := ih g
        have hge : d q g.desc ≤ d q f0.desc := Nat.le_of_not_lt hlt
        cases L1 with
        | nil =>
            simp only [List.nil_append] at hdecomp
            injection hdecomp with h1 h2
            subst h1
            subst h2
            refine ⟨g, [], f0 :: rest, ?_, ?_, by simp, ?_⟩
            · simp only [scanBest, if_neg hlt]
              exact heq
            · simp
            · intro x hx
              rcases List.mem_cons.mp hx with rfl | hx2
              · exact Nat.le_refl _
              · rcases List.mem_cons.mp hx2 with rfl | hx3
                · exact hge
                · exact hmin x (List.mem_cons_of_mem _ hx3)
        | cons a L1t =>
            have hdecomp2 := hdecomp
            rw [List.cons_append] at hdecomp2
            injection hdecomp2 with h1 hrest
            subst h1
            have hfg : d q f.desc < d q g.desc :=
              hstrict g (List.mem_cons_self ..)
            refine ⟨f, g :: f0 :: L1t, L2, ?_, ?_, ?_, ?_⟩
            · simp only [scanBest, if_neg hlt]
              exact heq
            · simp only [List.cons_append, List.cons.injEq, true_and]
              rw [← hrest]
            · intro x hx
              rcases List.mem_cons.mp hx with rfl | hx2
              · exact hfg
              · rcases List.mem_cons.mp hx2 with rfl | hx3
                · exact Nat.lt_of_lt_of_le hfg hge
                · exact hstrict x (List.mem_cons_of_mem _ hx3)
            · intro x hx
              rcases List.mem_cons.mp hx with rfl | hx2
              · exact Nat.le_of_lt hfg
              · rcases List.mem_cons.mp hx2 with rfl | hx3
                · exact Nat.le_of_lt (Nat.lt_of_lt_of_le hfg hge)
                · exact hmin x (List.mem_cons_of_mem _ (hrest ▸ hx3))

/-- C2: `FindMatchInDroppedTracks` returns a match only when its distance
is strictly below the threshold; the match is a nearest neighbor of the
query over the dropped pool, the first-encountered one on exact ties; the
matched entry is removed from the pool (so it can be recovered at most
once per frame); when every pool entry is at or beyond the threshold,
no match is returned and the pool is unchanged; and the recovery step
reuses the matched feature's identifier (updating its position and
descriptor) on success, while on failure it allocates the fresh
identifier. -/
theorem findMatch_spec (d : List Int → List Int → Nat) (thresh : Nat)
    (q : List Int) (pool : List Feature) :
    (∀ f, (findMatchInDroppedTracks d thresh q pool).1 = some f →
      d q f.desc < thresh ∧
      (∀ g ∈ pool, d q f.desc ≤ d q g.desc) ∧
      (∃ L1 L2, pool = L1 ++ f :: L2 ∧
        ∀ x ∈ L1, d q f.desc < d q x.desc) ∧
      (findMatchInDroppedTracks d thresh q pool).2 = pool.erase f ∧
      ((findMatchInDroppedTracks d thresh q pool).2).length + 1 =
        pool.length) ∧
    ((∀ g ∈ pool, thresh ≤ d q g.desc) →
      findMatchInDroppedTracks d thresh q pool = (none, pool)) ∧
    (∀ f, (findMatchInDroppedTracks d thresh q pool).1 = some f →
      ∀ nid kp, (recoverOrNew d thresh nid kp q pool).1.id = f.id ∧
        (recoverOrNew d thresh nid kp q pool).1.pos = kp ∧
        (recoverOrNew d thresh nid kp q pool).1.desc = q) ∧
    ((findMatchInDroppedTracks d thresh q pool).1 = none →
      (findMatchInDroppedTracks d thresh q pool).2 = pool ∧
      ∀ nid kp, (recoverOrNew d thresh nid kp q pool).1.id = nid) := by
  cases pool with
  | nil =>
      refine ⟨?_, ?_, ?_, ?_⟩
      · intro f hf
        simp [findMatchInDroppedTracks, scanBest] at hf
      · intro h
        rfl
      · intro f hf
        simp [findMatchInDroppedTracks, scanBest] at hf
      · intro h
        exact ⟨rfl, fun nid kp => rfl⟩
  | cons p ps =>
      obtain ⟨f0, L1, L2, heq, hdecomp, hstrict, hmin⟩ :=
        scanBest_acc d q ps p
      have hscan : scanBest d q none (p :: ps) = some (f0, d q f0.desc) :=
        heq
      by_cases hthr : d q f0.desc < thresh
      · have hfm : findMatchInDroppedTracks d thresh q (p :: ps) =
            (some f0, (p :: ps).erase f0) := by
          simp [findMatchInDroppedTracks, hscan, hthr]
        have hf0mem : f0 ∈ p :: ps := by
          rw [hdecomp]
          exact List.mem_append_right _ (List.mem_cons_self ..)
        refine ⟨?_, ?_, ?_, ?_⟩
        · intro f hf
          rw [hfm] at hf
          injection hf with hff
          subst hff
          refine ⟨hthr, fun g hg => hmin g (hdecomp ▸ hg), ?_, ?_, ?_⟩
          · exact ⟨L1, L2, hdecomp, hstrict⟩
          · rw [hfm]
          · rw [hfm]
            have := List.length_erase_of_mem hf0mem
            simp only [this]
            have hpos : 0 < (p :: ps).length := by simp
            omega
        · intro hall
          have := hall f0 hf0mem
          omega
        · intro f hf nid kp
          rw [hfm] at hf
          injection hf with hff
          subst hff
          simp [recoverOrNew, hfm]
        · intro hnone
          rw [hfm] at hnone
          cases hnone
      · have hfm : findMatchInDroppedTracks d thresh q (p :: ps) =
            (none, p :: ps) := by
          simp [findMatchInDroppedTracks, hscan, hthr]
        refine ⟨?_, fun _ => hfm, ?_, ?_⟩
        · intro f hf
          rw [hfm] at hf
          cases hf
        · intro f hf
          rw [hfm] at hf
          cases hf
        · intro hnone
          refine ⟨by rw [hfm], fun nid kp => ?_⟩
          simp [recoverOrNew, hfm]

/-- C2 witness: with L1 descriptor distance and threshold 5, the query
`[0]` against a pool with descriptors `[3]` and `[1]` recovers the
feature with descriptor `[1]` (distance 1), removing it from the pool. -/
theorem findMatch_spec_witness :
    descDistL1 [0] (⟨8, (1, 1), [1]⟩ : Feature).desc < 5 ∧
      (findMatchInDroppedTracks descDistL1 5 [0]
          [⟨7, (0, 0), [3]⟩, ⟨8, (1, 1), [1]⟩]).2 =
        ([⟨7, (0, 0), [3]⟩, ⟨8, (1, 1), [1]⟩] : List Feature).erase
          ⟨8, (1, 1), [1]⟩ ∧
      (recoverOrNew descDistL1 5 9 (2, 2) [0]
          [⟨7, (0, 0), [3]⟩, ⟨8, (1, 1), [1]⟩]).1.id = 8 :=
  ⟨((findMatch_spec descDistL1 5 [0]
        [⟨7, (0, 0), [3]⟩, ⟨8, (1, 1), [1]⟩]).1
      ⟨8, (1, 1), [1]⟩ (by decide)).1,
   ((findMatch_spec descDistL1 5 [0]
        [⟨7, (0, 0), [3]⟩, ⟨8, (1, 1), [1]⟩]).1
      ⟨8, (1, 1), [1]⟩ (by decide)).2.2.2.1,
   ((findMatch_spec descDistL1 5 [0]
        [⟨7, (0, 0), [3]⟩, ⟨8, (1, 1), [1]⟩]).2.2.1
      ⟨8, (1, 1), [1]⟩ (by decide) 9 (2, 2)).1⟩

end Xivo
